import Mathlib

/-!
Verification of the Relay WebSocket server (src/main.rs, src/relay.rs).

Shallow embedding: peer handles (the `Sender` values, compared in the source
with `Arc::ptr_eq`) are modelled as natural-number identities; the registry
`HashMap<String, Room>` is modelled as an association list with unique keys;
each handler is a pure function from the registry and the acting client's
session state to the new registry, the new session state, and the list of
frames it emits, each frame paired with its recipient's handle.  The fresh
identifier produced by `Uuid::new_v4()` is an oracle input of
`handle_create_room`; external URI parsing in the origin gate is an oracle
parameter as well.
-/

namespace Relay

/-- A peer handle: identity of one connected socket (`Sender` in the source,
compared with `Arc::ptr_eq`). -/
abbrev Handle := Nat

/-- `Room` from relay.rs: a capacity and the ordered list of member handles. -/
structure Room where
  size : Nat
  senders : List Handle
deriving DecidableEq, Repr

/-- `Room::MIN_ROOM_SIZE`. -/
def Room.MIN_ROOM_SIZE : Nat := 0

/-- `Room::MAX_ROOM_SIZE`. -/
def Room.MAX_ROOM_SIZE : Nat := 255

/-- `Room::DEFAULT_ROOM_SIZE`. -/
def Room.DEFAULT_ROOM_SIZE : Nat := 2

/-- The registry `Server.rooms : HashMap<String, Room>`, as an association
list whose keys are unique in every reachable state. -/
abbrev Registry := List (String × Room)

/-- `ResponsePacket` from relay.rs.  `join`'s `size` field is absent exactly
when the option is `none` (`skip_serializing_if = "Option::is_none"`). -/
inductive ResponsePacket where
  | join (size : Option Nat)
  | create (id : String)
  | leave (index : Nat)
  | error (message : String)
deriving DecidableEq, Repr

/-- `Client` session state from relay.rs: its handle and cached room id. -/
structure Client where
  sender : Handle
  room_id : Option String
deriving DecidableEq, Repr

/-- A control-plane frame emitted to a peer: recipient handle and packet. -/
abbrev ControlOut := Handle × ResponsePacket

/-- `HashMap::get` on the registry (first entry with the key; keys are unique
in reachable states). -/
def lookupRoom : Registry → String → Option Room
  | [], _ => none
  | (k, r) :: rest, key => if k = key then some r else lookupRoom rest key

/-- `HashMap::contains_key`. -/
def containsKey : Registry → String → Bool
  | [], _ => false
  | (k, _) :: rest, key => k == key || containsKey rest key

/-- The membership guard of `handle_create_room`/`handle_join_room`:
`server.rooms.iter().any(|(_, room)| room.senders.iter().any(|s| Arc::ptr_eq(s, &self.sender)))`. -/
def inSomeRoomb : Registry → Handle → Bool
  | [], _ => false
  | (_, r) :: rest, s => r.senders.contains s || inSomeRoomb rest s

/-- Mutating the room stored under a key (the effect of `HashMap::get_mut`
followed by in-place mutation). -/
def setRoom : Registry → String → Room → Registry
  | [], _, _ => []
  | (k, r) :: rest, key, room =>
      if k = key then (k, room) :: setRoom rest key room
      else (k, r) :: setRoom rest key room

/-- `HashMap::remove` (drops every entry with the key; exactly one in
reachable states). -/
def removeRoom : Registry → String → Registry
  | [], _ => []
  | (k, r) :: rest, key =>
      if k = key then removeRoom rest key else (k, r) :: removeRoom rest key

/-- `Iterator::position` with `Arc::ptr_eq` against a fixed handle: index of
the first occurrence. -/
def position : List Handle → Handle → Option Nat
  | [], _ => none
  | x :: rest, s => if x = s then some 0 else (position rest s).map (· + 1)

/-- `Client::handle_create_room`.  `newId` is the string produced by
`Uuid::new_v4().to_string()`, supplied as an oracle input. -/
def handle_create_room (rooms : Registry) (c : Client) (newId : String)
    (size_option : Option Nat) : Registry × Client × List ControlOut :=
  if inSomeRoomb rooms c.sender then (rooms, c, [])
  else
    let size := size_option.getD Room.DEFAULT_ROOM_SIZE
    if size = Room.MIN_ROOM_SIZE ∨ size ≥ Room.MAX_ROOM_SIZE then
      (rooms, c, [(c.sender, .error "The room size is not valid")])
    else if containsKey rooms newId then
      (rooms, c, [(c.sender, .error "A room with that identifier already exists.")])
    else
      ((newId, ⟨size, [c.sender]⟩) :: rooms,
       { c with room_id := some newId },
       [(c.sender, .create newId)])

/-- `Client::handle_join_room`. -/
def handle_join_room (rooms : Registry) (c : Client) (rid : String) :
    Registry × Client × List ControlOut :=
  if inSomeRoomb rooms c.sender then (rooms, c, [])
  else
    match lookupRoom rooms rid with
    | none => (rooms, c, [(c.sender, .error "The room does not exist.")])
    | some room =>
      if room.senders.length ≥ room.size then
        (rooms, c, [(c.sender, .error "The room is full.")])
      else
        let newSenders := room.senders ++ [c.sender]
        let size := some (newSenders.length - 1)
        (setRoom rooms rid { room with senders := newSenders },
         { c with room_id := some rid },
         newSenders.map fun s =>
           if s = c.sender then (s, .join size) else (s, .join none))

/-- `Client::handle_leave_room`. -/
def handle_leave_room (rooms : Registry) (c : Client) :
    Registry × Client × List ControlOut :=
  match c.room_id with
  | none => (rooms, c, [])
  | some rid =>
    match lookupRoom rooms rid with
    | none => (rooms, c, [])
    | some room =>
      match position room.senders c.sender with
      | none => (rooms, c, [])
      | some index =>
        let newSenders := room.senders.eraseIdx index
        let rooms' :=
          if newSenders.isEmpty then removeRoom rooms rid
          else setRoom rooms rid { room with senders := newSenders }
        (rooms', { c with room_id := none },
         newSenders.map fun s => (s, .leave index))

/-- `Client::handle_close`: identical to an explicit leave. -/
def handle_close (rooms : Registry) (c : Client) :
    Registry × Client × List ControlOut :=
  handle_leave_room rooms c

/-- The binary branch of `Client::handle_message`.  The result is the list of
(recipient, payload) deliveries; `none` models the panic of
`u8::try_from(index).unwrap()` when the sender's room index exceeds 255. -/
def handle_binary (rooms : Registry) (c : Client) (data : List Nat) :
    Option (List (Handle × List Nat)) :=
  match c.room_id with
  | none => some []
  | some rid =>
    match lookupRoom rooms rid with
    | none => some []
    | some room =>
      match position room.senders c.sender with
      | none => some []
      | some index =>
        match data with
        | [] => some []
        | d :: rest =>
          if 256 ≤ index then none
          else
            let newData := index :: rest
            if h : d < room.senders.length then
              some [(room.senders.get ⟨d, h⟩, newData)]
            else if d = 255 then
              some ((room.senders.filter fun s => s ≠ c.sender).map
                fun s => (s, newData))
            else
              some []

/-- The registry/session operations of the control plane. -/
inductive Op where
  | create (newId : String) (size_option : Option Nat)
  | join (rid : String)
  | leave
  | close
deriving DecidableEq, Repr

/-- Dispatch of one control operation for one session. -/
def applyOp (rooms : Registry) (c : Client) : Op → Registry × Client × List ControlOut
  | .create newId so => handle_create_room rooms c newId so
  | .join rid => handle_join_room rooms c rid
  | .leave => handle_leave_room rooms c
  | .close => handle_close rooms c

/-- The keys of the registry. -/
def roomsKeys (rooms : Registry) : List String := rooms.map Prod.fst

/-- A handle is a member of at most one room of the registry. -/
def atMostOneRoom (rooms : Registry) : Prop :=
  ∀ k₁ r₁ k₂ r₂ s, lookupRoom rooms k₁ = some r₁ → lookupRoom rooms k₂ = some r₂ →
    s ∈ r₁.senders → s ∈ r₂.senders → k₁ = k₂

/-- Within each room a handle appears at most once. -/
def noDupInRoom (rooms : Registry) : Prop :=
  ∀ k r, lookupRoom rooms k = some r → r.senders.Nodup

/-- No empty room persists in the registry. -/
def noEmptyRoom (rooms : Registry) : Prop :=
  ∀ k r, lookupRoom rooms k = some r → r.senders ≠ []

/-- The registry part of the combined state invariant. -/
def registryInv (rooms : Registry) : Prop :=
  (roomsKeys rooms).Nodup ∧ atMostOneRoom rooms ∧ noDupInRoom rooms ∧ noEmptyRoom rooms

/-- The handle is a member of some room of the registry. -/
def inSomeRoom (rooms : Registry) (s : Handle) : Prop :=
  ∃ k r, lookupRoom rooms k = some r ∧ s ∈ r.senders

/-- The session part of the combined state invariant: the cached `room_id`
is `some r` exactly when the registry's room `r` contains this session's
handle. -/
def clientInv (rooms : Registry) (c : Client) : Prop :=
  match c.room_id with
  | none => ¬ inSomeRoom rooms c.sender
  | some rid => ∃ r, lookupRoom rooms rid = some r ∧ c.sender ∈ r.senders

/-- Capacity facts maintained by the control plane: every stored room has
`0 < size ≤ 254` and occupancy at most its size. -/
def capacityInv (rooms : Registry) : Prop :=
  ∀ k r, lookupRoom rooms k = some r →
    0 < r.size ∧ r.size ≤ 254 ∧ r.senders.length ≤ r.size

/-- Registries reachable from the empty initial registry by control-plane
operations of arbitrary sessions (an over-approximation of the states the
running server can reach). -/
inductive ReachableReg : Registry → Prop
  | init : ReachableReg []
  | step (c : Client) (op : Op) {rooms : Registry} :
      ReachableReg rooms → ReachableReg (applyOp rooms c op).1

/-- One event observed by the acceptor loop in `main`: either
`listener.accept()` returns a connection (whose `set_nodelay` call may fail)
or it returns an error. -/
inductive AcceptEvent where
  | conn (nodelayFails : Bool)
  | acceptErr
deriving DecidableEq, Repr

/-- How a run of the acceptor loop over a finite event trace ends. -/
inductive AcceptorOutcome where
  | ranOut
  | exited
  | panicked
deriving DecidableEq, Repr

/-- The acceptor loop of `main`
(`while let Ok((tcp_stream, _)) = listener.accept().await { tcp_stream.set_nodelay(true).unwrap(); ... }`)
run over a finite trace of accept results: returns how the run ends and how
many connections were handed to `handle_connection`.  `ranOut` means the
trace was exhausted with the loop still running; an `Err` from `accept`
fails the `while let` pattern and exits the loop; a failing `set_nodelay`
makes the `unwrap()` panic. -/
def runAcceptor : List AcceptEvent → AcceptorOutcome × Nat
  | [] => (.ranOut, 0)
  | .acceptErr :: _ => (.exited, 0)
  | .conn true :: _ => (.panicked, 0)
  | .conn false :: rest =>
      let r := runAcceptor rest
      (r.1, r.2 + 1)

/-- The `Origin` header of an upgrade request: absent, present but not valid
UTF-8 (`HeaderValue::to_str` fails), or a UTF-8 string. -/
inductive OriginHeader where
  | missing
  | invalidUtf8
  | value (s : String)
deriving DecidableEq, Repr

/-- The decision of the upgrade callback in `Server::handle_connection`. -/
inductive GateDecision where
  | accept
  | badRequest
  | forbidden
deriving DecidableEq, Repr

/-- Rust's `str::ends_with`, at the level of character sequences (for the
suffixes the gate builds — they start with the one-byte character `.` — a
byte-level suffix match and a character-level one coincide). -/
def endsWithStr (s suf : String) : Bool := List.isSuffixOf suf.data s.data

/-- The origin-checking callback of `Server::handle_connection`.  `uriHost`
is the external URI parser (`origin.parse::<Uri>()` followed by
`Uri::host()`): `none` when parsing fails, `some none` when the URI has no
host, `some (some h)` for parsed host `h`. -/
def originGate (host : String) (origin : OriginHeader)
    (uriHost : String → Option (Option String)) : GateDecision :=
  if host.isEmpty then .accept
  else
    match origin with
    | .missing => .badRequest
    | .invalidUtf8 => .badRequest
    | .value s =>
      match uriHost s with
      | none => .badRequest
      | some none => .badRequest
      | some (some originHost) =>
        if originHost ≠ host ∧ ¬ (endsWithStr originHost ("." ++ host)) then
          .forbidden
        else
          .accept

/-! ### Lemmas about the registry operations -/

theorem lookupRoom_setRoom_self (rooms : Registry) (k : String) (room : Room) :
    lookupRoom (setRoom rooms k room) k = (lookupRoom rooms k).map (fun _ => room) := by
  induction rooms with
  | nil => rfl
  | cons kr rest ih =>
    obtain ⟨k', r'⟩ := kr
    by_cases h : k' = k
    · subst h; simp [setRoom, lookupRoom]
    · simp [setRoom, lookupRoom, h, ih]

theorem lookupRoom_setRoom_ne (rooms : Registry) {k k' : String} (room : Room)
    (h : k' ≠ k) :
    lookupRoom (setRoom rooms k room) k' = lookupRoom rooms k' := by
  induction rooms with
  | nil => rfl
  | cons kr rest ih =>
    obtain ⟨k'', r''⟩ := kr
    by_cases hk : k'' = k
    · subst hk
      have hne : ¬ (k'' = k') := fun hh => h hh.symm
      simp [setRoom, lookupRoom, hne, ih]
    · by_cases hk' : k'' = k'
      · simp [setRoom, lookupRoom, hk, hk', h]
      · simp [setRoom, lookupRoom, hk, hk', ih]

theorem lookupRoom_removeRoom_self (rooms : Registry) (k : String) :
    lookupRoom (removeRoom rooms k) k = none := by
  induction rooms with
  | nil => rfl
  | cons kr rest ih =>
    obtain ⟨k', r'⟩ := kr
    by_cases h : k' = k
    · simp [removeRoom, h, ih]
    · simp [removeRoom, h, lookupRoom, ih]

theorem lookupRoom_removeRoom_ne (rooms : Registry) {k k' : String}
    (h : k' ≠ k) :
    lookupRoom (removeRoom rooms k) k' = lookupRoom rooms k' := by
  induction rooms with
  | nil => rfl
  | cons kr rest ih =>
    obtain ⟨k'', r''⟩ := kr
    by_cases hk : k'' = k
    · subst hk
      have hne : ¬ (k'' = k') := fun hh => h hh.symm
      simp [removeRoom, lookupRoom, hne, ih]
    · by_cases hk' : k'' = k'
      · simp [removeRoom, lookupRoom, hk, hk', h]
      · simp [removeRoom, lookupRoom, hk, hk', ih]

theorem containsKey_iff_mem (rooms : Registry) (k : String) :
    containsKey rooms k = true ↔ k ∈ roomsKeys rooms := by
  induction rooms with
  | nil => simp [containsKey, roomsKeys]
  | cons kr rest ih =>
    obtain ⟨k', r'⟩ := kr
    by_cases hk : k' = k
    · subst hk; simp [containsKey, roomsKeys]
    · have hk2 : ¬ (k = k') := fun hh => hk hh.symm
      simp [containsKey, roomsKeys, hk, hk2] at ih ⊢
      exact ih

theorem containsKey_eq_false_iff (rooms : Registry) (k : String) :
    containsKey rooms k = false ↔ lookupRoom rooms k = none := by
  induction rooms with
  | nil => simp [containsKey, lookupRoom]
  | cons kr rest ih =>
    obtain ⟨k', r'⟩ := kr
    by_cases h : k' = k
    · subst h; simp [containsKey, lookupRoom]
    · simp [containsKey, lookupRoom, h, ih]

theorem lookupRoom_mem {rooms : Registry} {k : String} {r : Room}
    (h : lookupRoom rooms k = some r) : (k, r) ∈ rooms := by
  induction rooms with
  | nil => simp [lookupRoom] at h
  | cons kr rest ih =>
    obtain ⟨k', r'⟩ := kr
    by_cases hk : k' = k
    · subst hk
      simp [lookupRoom] at h
      subst h; exact List.mem_cons_self _ _
    · simp only [lookupRoom, if_neg hk] at h
      exact List.mem_cons_of_mem _ (ih h)

theorem inSomeRoomb_iff (rooms : Registry) (s : Handle) :
    inSomeRoomb rooms s = true ↔ ∃ kr ∈ rooms, s ∈ kr.2.senders := by
  induction rooms with
  | nil => simp [inSomeRoomb]
  | cons kr rest ih =>
    obtain ⟨k', r'⟩ := kr
    simp [inSomeRoomb, ih]

theorem not_inSomeRoom_of_guard {rooms : Registry} {s : Handle}
    (hg : inSomeRoomb rooms s = false) : ¬ inSomeRoom rooms s := by
  rintro ⟨k, r, hlook, hmem⟩
  have : inSomeRoomb rooms s = true :=
    (inSomeRoomb_iff rooms s).2 ⟨(k, r), lookupRoom_mem hlook, hmem⟩
  rw [hg] at this
  exact Bool.false_ne_true this

theorem inSomeRoomb_of_lookup {rooms : Registry} {k : String} {r : Room}
    {s : Handle} (hlook : lookupRoom rooms k = some r) (hmem : s ∈ r.senders) :
    inSomeRoomb rooms s = true :=
  (inSomeRoomb_iff rooms s).2 ⟨(k, r), lookupRoom_mem hlook, hmem⟩

theorem roomsKeys_setRoom (rooms : Registry) (k : String) (room : Room) :
    roomsKeys (setRoom rooms k room) = roomsKeys rooms := by
  induction rooms with
  | nil => rfl
  | cons kr rest ih =>
    obtain ⟨k', r'⟩ := kr
    by_cases h : k' = k
    · subst h; simp [setRoom, roomsKeys] at ih ⊢; exact ih
    · simp [setRoom, roomsKeys, h] at ih ⊢; exact ih

theorem removeRoom_sublist (rooms : Registry) (k : String) :
    (removeRoom rooms k).Sublist rooms := by
  induction rooms with
  | nil => exact List.Sublist.refl _
  | cons kr rest ih =>
    obtain ⟨k', r'⟩ := kr
    by_cases h : k' = k
    · simpa [removeRoom, h] using ih.cons (k', r')
    · simpa [removeRoom, h] using ih.cons₂ (k', r')

theorem roomsKeys_removeRoom_sublist (rooms : Registry) (k : String) :
    (roomsKeys (removeRoom rooms k)).Sublist (roomsKeys rooms) :=
  (removeRoom_sublist rooms k).map Prod.fst

/-! ### Lemmas about `position` -/

theorem position_eq_none_iff (l : List Handle) (s : Handle) :
    position l s = none ↔ s ∉ l := by
  induction l with
  | nil => simp [position]
  | cons x rest ih =>
    by_cases h : x = s
    · subst h; simp [position]
    · simp [position, h, ih, Ne.symm h, Option.map_eq_none']

theorem position_lt {l : List Handle} {s : Handle} {i : Nat}
    (h : position l s = some i) : i < l.length := by
  induction l generalizing i with
  | nil => simp [position] at h
  | cons x rest ih =>
    by_cases hx : x = s
    · subst hx
      simp [position] at h
      simp only [List.length_cons]
      omega
    · simp [position, hx] at h
      obtain ⟨j, hj, hji⟩ := h
      have := ih hj
      simp only [List.length_cons]
      omega

theorem position_get {l : List Handle} {s : Handle} {i : Nat}
    (h : position l s = some i) (hi : i < l.length) : l.get ⟨i, hi⟩ = s := by
  induction l generalizing i with
  | nil => simp [position] at h
  | cons x rest ih =>
    by_cases hx : x = s
    · subst hx
      have h0 : i = 0 := by simp [position] at h; omega
      subst h0; rfl
    · simp [position, hx] at h
      obtain ⟨j, hj, hji⟩ := h
      subst hji
      exact ih hj (by simpa using Nat.lt_of_succ_lt_succ (by simpa using hi))

theorem position_eq_some_of_mem {l : List Handle} {s : Handle} (h : s ∈ l) :
    ∃ i, position l s = some i := by
  cases hp : position l s with
  | none => exact absurd h ((position_eq_none_iff l s).1 hp)
  | some i => exact ⟨i, rfl⟩

theorem length_eraseIdx_position {l : List Handle} {s : Handle} {i : Nat}
    (h : position l s = some i) :
    (l.eraseIdx i).length + 1 = l.length := by
  have hi := position_lt h
  rw [List.length_eraseIdx]
  simp only [if_pos hi]
  omega

theorem mem_eraseIdx_of_ne {l : List Handle} {s t : Handle} {i : Nat}
    (hmem : t ∈ l) (hpos : position l s = some i) (hne : t ≠ s) :
    t ∈ l.eraseIdx i := by
  induction l generalizing i with
  | nil => simp at hmem
  | cons x rest ih =>
    by_cases hx : x = s
    · subst hx
      have h0 : i = 0 := by simp [position] at hpos; omega
      subst h0
      simp only [List.eraseIdx]
      rcases List.mem_cons.1 hmem with h | h
      · exact absurd h hne
      · exact h
    · simp [position, hx] at hpos
      obtain ⟨j, hj, hji⟩ := hpos
      subst hji
      simp only [List.eraseIdx]
      rcases List.mem_cons.1 hmem with h | h
      · exact List.mem_cons.2 (Or.inl h)
      · exact List.mem_cons.2 (Or.inr (ih h hj))

theorem not_mem_eraseIdx_position {l : List Handle} {s : Handle} {i : Nat}
    (hnd : l.Nodup) (hpos : position l s = some i) : s ∉ l.eraseIdx i := by
  induction l generalizing i with
  | nil => simp [position] at hpos
  | cons x rest ih =>
    rcases List.nodup_cons.1 hnd with ⟨hx, hrest⟩
    by_cases hxs : x = s
    · subst hxs
      have h0 : i = 0 := by simp [position] at hpos; omega
      subst h0
      simpa [List.eraseIdx] using hx
    · simp [position, hxs] at hpos
      obtain ⟨j, hj, hji⟩ := hpos
      subst hji
      simp only [List.eraseIdx, List.mem_cons]
      rintro (h | h)
      · exact hxs h.symm
      · exact ih hrest hj h

theorem mem_of_mem_eraseIdx {l : List Handle} {t : Handle} {i : Nat}
    (h : t ∈ l.eraseIdx i) : t ∈ l :=
  (List.eraseIdx_sublist l i).mem h

theorem lookupRoom_setRoom_cases {rooms : Registry} {k k' : String} {room r : Room}
    (h : lookupRoom (setRoom rooms k room) k' = some r) :
    (k' = k ∧ r = room ∧ ∃ rold, lookupRoom rooms k = some rold) ∨
    (k' ≠ k ∧ lookupRoom rooms k' = some r) := by
  by_cases hk : k' = k
  · subst hk
    rw [lookupRoom_setRoom_self] at h
    cases hold : lookupRoom rooms k' with
    | none => rw [hold] at h; simp at h
    | some rold =>
      rw [hold] at h
      simp at h
      exact Or.inl ⟨rfl, h.symm, rold, rfl⟩
  · rw [lookupRoom_setRoom_ne rooms room hk] at h
    exact Or.inr ⟨hk, h⟩

theorem lookupRoom_removeRoom_cases {rooms : Registry} {k k' : String} {r : Room}
    (h : lookupRoom (removeRoom rooms k) k' = some r) :
    k' ≠ k ∧ lookupRoom rooms k' = some r := by
  by_cases hk : k' = k
  · subst hk; rw [lookupRoom_removeRoom_self] at h; simp at h
  · rw [lookupRoom_removeRoom_ne rooms hk] at h; exact ⟨hk, h⟩

theorem guard_not_mem {rooms : Registry} {s : Handle}
    (hg : inSomeRoomb rooms s = false) {k : String} {r : Room}
    (hlook : lookupRoom rooms k = some r) : s ∉ r.senders := by
  intro hmem
  have hin := inSomeRoomb_of_lookup hlook hmem
  rw [hin] at hg
  simp at hg

/-- `handle_leave_room` preserves the combined state invariant: the registry
invariant, the acting session's invariant, and every other session's
invariant. -/
theorem leave_preserves (rooms : Registry) (c : Client)
    (hreg : registryInv rooms) (hc : clientInv rooms c) :
    registryInv (handle_leave_room rooms c).1 ∧
    clientInv (handle_leave_room rooms c).1 (handle_leave_room rooms c).2.1 ∧
    (∀ d : Client, d.sender ≠ c.sender → clientInv rooms d →
      clientInv (handle_leave_room rooms c).1 d) := by
  obtain ⟨hkeys, hone, hdup, hnemp⟩ := hreg
  cases hrid : c.room_id with
  | none =>
    have hred : handle_leave_room rooms c = (rooms, c, []) := by
      simp [handle_leave_room, hrid]
    rw [hred]
    exact ⟨⟨hkeys, hone, hdup, hnemp⟩, hc, fun d _ hd => hd⟩
  | some rid =>
    simp only [clientInv, hrid] at hc
    obtain ⟨r0, hlook0, hmem0⟩ := hc
    obtain ⟨i, hpos⟩ := position_eq_some_of_mem hmem0
    have hnod0 : r0.senders.Nodup := hdup rid r0 hlook0
    by_cases hemp : (r0.senders.eraseIdx i).isEmpty
    · -- the departing peer was the last member: the entry is removed
      have hred : handle_leave_room rooms c =
          (removeRoom rooms rid, { c with room_id := none },
           (r0.senders.eraseIdx i).map fun s => (s, .leave i)) := by
        simp [handle_leave_room, hrid, hlook0, hpos, hemp]
      rw [hred]
      have herased : r0.senders.eraseIdx i = [] := List.isEmpty_iff.1 hemp
      refine ⟨⟨?_, ?_, ?_, ?_⟩, ?_, ?_⟩
      · exact List.Nodup.sublist (roomsKeys_removeRoom_sublist rooms rid) hkeys
      · intro k₁ r₁ k₂ r₂ s h₁ h₂ hs₁ hs₂
        exact hone k₁ r₁ k₂ r₂ s (lookupRoom_removeRoom_cases h₁).2
          (lookupRoom_removeRoom_cases h₂).2 hs₁ hs₂
      · intro k r h
        exact hdup k r (lookupRoom_removeRoom_cases h).2
      · intro k r h
        exact hnemp k r (lookupRoom_removeRoom_cases h).2
      · simp only [clientInv, inSomeRoom]
        rintro ⟨k, r, hlk, hmm⟩
        obtain ⟨hkne, hlk⟩ := lookupRoom_removeRoom_cases hlk
        exact hkne (hone k r rid r0 c.sender hlk hlook0 hmm hmem0)
      · intro d hdne hd
        cases hdr : d.room_id with
        | none =>
          simp only [clientInv, hdr, inSomeRoom] at hd ⊢
          rintro ⟨k, r, hlk, hmm⟩
          exact hd ⟨k, r, (lookupRoom_removeRoom_cases hlk).2, hmm⟩
        | some rid' =>
          simp only [clientInv, hdr] at hd ⊢
          obtain ⟨r', hl', hm'⟩ := hd
          by_cases hrr : rid' = rid
          · subst hrr
            rw [hlook0] at hl'
            have hr' : r0 = r' := Option.some.inj hl'
            have hm0 : d.sender ∈ r0.senders := by rw [hr']; exact hm'
            have hlen : r0.senders.length = 1 := by
              have hl1 := length_eraseIdx_position hpos
              rw [herased] at hl1
              simpa using hl1.symm
            obtain ⟨a, ha⟩ := List.length_eq_one.1 hlen
            rw [ha] at hmem0 hm0
            simp at hmem0 hm0
            exact absurd (hm0.trans hmem0.symm) hdne
          · refine ⟨r', ?_, hm'⟩
            rw [lookupRoom_removeRoom_ne rooms hrr]
            exact hl'
    · -- other peers remain: the entry keeps the shrunken member list
      have hred : handle_leave_room rooms c =
          (setRoom rooms rid { r0 with senders := r0.senders.eraseIdx i },
           { c with room_id := none },
           (r0.senders.eraseIdx i).map fun s => (s, .leave i)) := by
        simp [handle_leave_room, hrid, hlook0, hpos, hemp]
      rw [hred]
      have hkeep : lookupRoom (setRoom rooms rid { r0 with senders := r0.senders.eraseIdx i }) rid
          = some { r0 with senders := r0.senders.eraseIdx i } := by
        rw [lookupRoom_setRoom_self, hlook0]; rfl
      refine ⟨⟨?_, ?_, ?_, ?_⟩, ?_, ?_⟩
      · rw [roomsKeys_setRoom]; exact hkeys
      · intro k₁ r₁ k₂ r₂ s h₁ h₂ hs₁ hs₂
        rcases lookupRoom_setRoom_cases h₁ with ⟨hk₁, hr₁, -⟩ | ⟨hk₁, h₁⟩ <;>
          rcases lookupRoom_setRoom_cases h₂ with ⟨hk₂, hr₂, -⟩ | ⟨hk₂, h₂⟩
        · rw [hk₁, hk₂]
        · subst hr₁
          exact absurd (hone k₂ r₂ rid r0 s h₂ hlook0 hs₂ (mem_of_mem_eraseIdx hs₁)) hk₂
        · subst hr₂
          exact absurd (hone k₁ r₁ rid r0 s h₁ hlook0 hs₁ (mem_of_mem_eraseIdx hs₂)) hk₁
        · exact hone k₁ r₁ k₂ r₂ s h₁ h₂ hs₁ hs₂
      · intro k r h
        rcases lookupRoom_setRoom_cases h with ⟨hk, hr, -⟩ | ⟨-, h⟩
        · subst hr
          exact List.Nodup.sublist (List.eraseIdx_sublist _ _) hnod0
        · exact hdup k r h
      · intro k r h
        rcases lookupRoom_setRoom_cases h with ⟨hk, hr, -⟩ | ⟨-, h⟩
        · subst hr
          intro hnil
          have hnil2 : r0.senders.eraseIdx i = [] := hnil
          exact hemp (by rw [hnil2]; rfl)
        · exact hnemp k r h
      · simp only [clientInv, inSomeRoom]
        rintro ⟨k, r, hlk, hmm⟩
        rcases lookupRoom_setRoom_cases hlk with ⟨hk, hr, -⟩ | ⟨hk, hlk⟩
        · subst hr
          exact not_mem_eraseIdx_position hnod0 hpos hmm
        · exact hk (hone k r rid r0 c.sender hlk hlook0 hmm hmem0)
      · intro d hdne hd
        cases hdr : d.room_id with
        | none =>
          simp only [clientInv, hdr, inSomeRoom] at hd ⊢
          rintro ⟨k, r, hlk, hmm⟩
          rcases lookupRoom_setRoom_cases hlk with ⟨hk, hr, -⟩ | ⟨hk, hlk⟩
          · subst hr
            exact hd ⟨rid, r0, hlook0, mem_of_mem_eraseIdx hmm⟩
          · exact hd ⟨k, r, hlk, hmm⟩
        | some rid' =>
          simp only [clientInv, hdr] at hd ⊢
          obtain ⟨r', hl', hm'⟩ := hd
          by_cases hrr : rid' = rid
          · subst hrr
            rw [hlook0] at hl'
            have hr' : r0 = r' := Option.some.inj hl'
            have hm0 : d.sender ∈ r0.senders := by rw [hr']; exact hm'
            exact ⟨_, hkeep, mem_eraseIdx_of_ne hm0 hpos hdne⟩
          · refine ⟨r', ?_, hm'⟩
            rw [lookupRoom_setRoom_ne rooms _ hrr]
            exact hl'

theorem lookupRoom_cons_cases {rooms : Registry} {newId k : String} {nr r : Room}
    (h : lookupRoom ((newId, nr) :: rooms) k = some r) :
    (newId = k ∧ nr = r) ∨ (newId ≠ k ∧ lookupRoom rooms k = some r) := by
  by_cases hk : newId = k
  · subst hk
    simp [lookupRoom] at h
    exact Or.inl ⟨rfl, h⟩
  · simp [lookupRoom, hk] at h
    exact Or.inr ⟨hk, h⟩

/-- `handle_join_room` preserves the combined state invariant. -/
theorem join_preserves (rooms : Registry) (c : Client) (rid : String)
    (hreg : registryInv rooms) (hc : clientInv rooms c) :
    registryInv (handle_join_room rooms c rid).1 ∧
    clientInv (handle_join_room rooms c rid).1 (handle_join_room rooms c rid).2.1 ∧
    (∀ d : Client, d.sender ≠ c.sender → clientInv rooms d →
      clientInv (handle_join_room rooms c rid).1 d) := by
  obtain ⟨hkeys, hone, hdup, hnemp⟩ := hreg
  by_cases hg : inSomeRoomb rooms c.sender
  · have hred : handle_join_room rooms c rid = (rooms, c, []) := by
      simp [handle_join_room, hg]
    rw [hred]
    exact ⟨⟨hkeys, hone, hdup, hnemp⟩, hc, fun d _ hd => hd⟩
  · have hg' : inSomeRoomb rooms c.sender = false := by simpa using hg
    cases hlook : lookupRoom rooms rid with
    | none =>
      have hred : handle_join_room rooms c rid =
          (rooms, c, [(c.sender, .error "The room does not exist.")]) := by
        simp [handle_join_room, hg', hlook]
      rw [hred]
      exact ⟨⟨hkeys, hone, hdup, hnemp⟩, hc, fun d _ hd => hd⟩
    | some room =>
      by_cases hfull : room.senders.length ≥ room.size
      · have hred : handle_join_room rooms c rid =
            (rooms, c, [(c.sender, .error "The room is full.")]) := by
          simp [handle_join_room, hg', hlook, hfull]
        rw [hred]
        exact ⟨⟨hkeys, hone, hdup, hnemp⟩, hc, fun d _ hd => hd⟩
      · have hred : handle_join_room rooms c rid =
            (setRoom rooms rid { room with senders := room.senders ++ [c.sender] },
             { c with room_id := some rid },
             (room.senders ++ [c.sender]).map fun s =>
               if s = c.sender then
                 (s, .join (some ((room.senders ++ [c.sender]).length - 1)))
               else (s, .join none)) := by
          simp [handle_join_room, hg', hlook, hfull]
        rw [hred]
        have hcnot : c.sender ∉ room.senders := guard_not_mem hg' hlook
        have hkeep :
            lookupRoom (setRoom rooms rid { room with senders := room.senders ++ [c.sender] }) rid
              = some { room with senders := room.senders ++ [c.sender] } := by
          rw [lookupRoom_setRoom_self, hlook]; rfl
        refine ⟨⟨?_, ?_, ?_, ?_⟩, ?_, ?_⟩
        · rw [roomsKeys_setRoom]; exact hkeys
        · intro k₁ r₁ k₂ r₂ s h₁ h₂ hs₁ hs₂
          rcases lookupRoom_setRoom_cases h₁ with ⟨hk₁, hr₁, -⟩ | ⟨hk₁, h₁⟩ <;>
            rcases lookupRoom_setRoom_cases h₂ with ⟨hk₂, hr₂, -⟩ | ⟨hk₂, h₂⟩
          · rw [hk₁, hk₂]
          · subst hr₁
            rcases List.mem_append.1 hs₁ with hso | hsc
            · exact absurd (hone k₂ r₂ rid room s h₂ hlook hs₂ hso) hk₂
            · simp at hsc
              subst hsc
              exact absurd hs₂ (guard_not_mem hg' h₂)
          · subst hr₂
            rcases List.mem_append.1 hs₂ with hso | hsc
            · exact absurd (hone k₁ r₁ rid room s h₁ hlook hs₁ hso) hk₁
            · simp at hsc
              subst hsc
              exact absurd hs₁ (guard_not_mem hg' h₁)
          · exact hone k₁ r₁ k₂ r₂ s h₁ h₂ hs₁ hs₂
        · intro k r h
          rcases lookupRoom_setRoom_cases h with ⟨hk, hr, -⟩ | ⟨-, h⟩
          · subst hr
            have hnd : (room.senders ++ [c.sender]).Nodup := by
              rw [List.nodup_append]
              refine ⟨hdup rid room hlook, List.nodup_singleton _, ?_⟩
              intro a ha hb
              simp at hb
              subst hb
              exact hcnot ha
            exact hnd
          · exact hdup k r h
        · intro k r h
          rcases lookupRoom_setRoom_cases h with ⟨hk, hr, -⟩ | ⟨-, h⟩
          · subst hr
            simp
          · exact hnemp k r h
        · simp only [clientInv]
          exact ⟨_, hkeep, by simp⟩
        · intro d hdne hd
          cases hdr : d.room_id with
          | none =>
            simp only [clientInv, hdr, inSomeRoom] at hd ⊢
            rintro ⟨k, r, hlk, hmm⟩
            rcases lookupRoom_setRoom_cases hlk with ⟨hk, hr, -⟩ | ⟨hk, hlk⟩
            · subst hr
              rcases List.mem_append.1 hmm with hmo | hmc
              · exact hd ⟨rid, room, hlook, hmo⟩
              · simp at hmc
                exact hdne hmc
            · exact hd ⟨k, r, hlk, hmm⟩
          | some rid' =>
            simp only [clientInv, hdr] at hd ⊢
            obtain ⟨r', hl', hm'⟩ := hd
            by_cases hrr : rid' = rid
            · subst hrr
              rw [hlook] at hl'
              have hr' : room = r' := Option.some.inj hl'
              have hm0 : d.sender ∈ room.senders := by rw [hr']; exact hm'
              exact ⟨_, hkeep, List.mem_append.2 (Or.inl hm0)⟩
            · refine ⟨r', ?_, hm'⟩
              rw [lookupRoom_setRoom_ne rooms _ hrr]
              exact hl'

/-- `handle_create_room` preserves the combined state invariant. -/
theorem create_preserves (rooms : Registry) (c : Client) (newId : String)
    (so : Option Nat) (hreg : registryInv rooms) (hc : clientInv rooms c) :
    registryInv (handle_create_room rooms c newId so).1 ∧
    clientInv (handle_create_room rooms c newId so).1
      (handle_create_room rooms c newId so).2.1 ∧
    (∀ d : Client, d.sender ≠ c.sender → clientInv rooms d →
      clientInv (handle_create_room rooms c newId so).1 d) := by
  obtain ⟨hkeys, hone, hdup, hnemp⟩ := hreg
  by_cases hg : inSomeRoomb rooms c.sender
  · have hred : handle_create_room rooms c newId so = (rooms, c, []) := by
      simp [handle_create_room, hg]
    rw [hred]
    exact ⟨⟨hkeys, hone, hdup, hnemp⟩, hc, fun d _ hd => hd⟩
  · have hg' : inSomeRoomb rooms c.sender = false := by simpa using hg
    by_cases hsz : (so.getD Room.DEFAULT_ROOM_SIZE) = Room.MIN_ROOM_SIZE ∨
        (so.getD Room.DEFAULT_ROOM_SIZE) ≥ Room.MAX_ROOM_SIZE
    · have hred : handle_create_room rooms c newId so =
          (rooms, c, [(c.sender, .error "The room size is not valid")]) := by
        simp [handle_create_room, hg', hsz]
      rw [hred]
      exact ⟨⟨hkeys, hone, hdup, hnemp⟩, hc, fun d _ hd => hd⟩
    · by_cases hck : containsKey rooms newId
      · have hred : handle_create_room rooms c newId so =
            (rooms, c, [(c.sender, .error "A room with that identifier already exists.")]) := by
          simp [handle_create_room, hg', hsz, hck]
        rw [hred]
        exact ⟨⟨hkeys, hone, hdup, hnemp⟩, hc, fun d _ hd => hd⟩
      · have hck' : containsKey rooms newId = false := by simpa using hck
        have hfresh : lookupRoom rooms newId = none :=
          (containsKey_eq_false_iff rooms newId).1 hck'
        have hred : handle_create_room rooms c newId so =
            ((newId, ⟨so.getD Room.DEFAULT_ROOM_SIZE, [c.sender]⟩) :: rooms,
             { c with room_id := some newId },
             [(c.sender, .create newId)]) := by
          simp [handle_create_room, hg', hsz, hck]
        rw [hred]
        have hnotkeys : newId ∉ roomsKeys rooms := by
          intro hmem
          have hcon := (containsKey_iff_mem rooms newId).2 hmem
          rw [hcon] at hck'
          simp at hck'
        refine ⟨⟨?_, ?_, ?_, ?_⟩, ?_, ?_⟩
        · exact List.nodup_cons.2 ⟨hnotkeys, hkeys⟩
        · intro k₁ r₁ k₂ r₂ s h₁ h₂ hs₁ hs₂
          rcases lookupRoom_cons_cases h₁ with ⟨hk₁, hr₁⟩ | ⟨hk₁, h₁⟩ <;>
            rcases lookupRoom_cons_cases h₂ with ⟨hk₂, hr₂⟩ | ⟨hk₂, h₂⟩
          · rw [← hk₁, ← hk₂]
          · exfalso
            rw [← hr₁] at hs₁
            simp at hs₁
            subst hs₁
            exact guard_not_mem hg' h₂ hs₂
          · exfalso
            rw [← hr₂] at hs₂
            simp at hs₂
            subst hs₂
            exact guard_not_mem hg' h₁ hs₁
          · exact hone k₁ r₁ k₂ r₂ s h₁ h₂ hs₁ hs₂
        · intro k r h
          rcases lookupRoom_cons_cases h with ⟨hk, hr⟩ | ⟨-, h⟩
          · rw [← hr]; simp
          · exact hdup k r h
        · intro k r h
          rcases lookupRoom_cons_cases h with ⟨hk, hr⟩ | ⟨-, h⟩
          · rw [← hr]; simp
          · exact hnemp k r h
        · simp only [clientInv]
          refine ⟨⟨so.getD Room.DEFAULT_ROOM_SIZE, [c.sender]⟩, ?_, by simp⟩
          simp [lookupRoom]
        · intro d hdne hd
          cases hdr : d.room_id with
          | none =>
            simp only [clientInv, hdr, inSomeRoom] at hd ⊢
            rintro ⟨k, r, hlk, hmm⟩
            rcases lookupRoom_cons_cases hlk with ⟨hk, hr⟩ | ⟨hk, hlk⟩
            · rw [← hr] at hmm
              simp at hmm
              exact hdne hmm
            · exact hd ⟨k, r, hlk, hmm⟩
          | some rid' =>
            simp only [clientInv, hdr] at hd ⊢
            obtain ⟨r', hl', hm'⟩ := hd
            have hne : ¬ (newId = rid') := by
              intro hh
              subst hh
              rw [hfresh] at hl'
              simp at hl'
            refine ⟨r', ?_, hm'⟩
            simp [lookupRoom, hne]
            exact hl'

theorem registryInv_nil : registryInv [] := by
  refine ⟨List.nodup_nil, ?_, ?_, ?_⟩
  · intro k₁ r₁ k₂ r₂ s h₁ h₂ hs₁ hs₂
    simp [lookupRoom] at h₁
  · intro k r h
    simp [lookupRoom] at h
  · intro k r h
    simp [lookupRoom] at h

theorem clientInv_nil (c : Client) (h : c.room_id = none) : clientInv [] c := by
  simp only [clientInv, h, inSomeRoom]
  rintro ⟨k, r, hlk, hmm⟩
  simp [lookupRoom] at hlk

/-- C1: every registry/session operation (create_room, join_room, leave_room,
close) preserves the combined state invariant: unique registry keys, each
handle in at most one room and at most once within it, no empty room
persisting, the acting session's `room_id`/membership correspondence, and the
same correspondence for every other session (any client with a different
handle). -/
theorem C1_ops_preserve_invariant (rooms : Registry) (c : Client) (op : Op)
    (hreg : registryInv rooms) (hc : clientInv rooms c) :
    registryInv (applyOp rooms c op).1 ∧
    clientInv (applyOp rooms c op).1 (applyOp rooms c op).2.1 ∧
    (∀ d : Client, d.sender ≠ c.sender → clientInv rooms d →
      clientInv (applyOp rooms c op).1 d) := by
  cases op with
  | create newId so => exact create_preserves rooms c newId so hreg hc
  | join rid => exact join_preserves rooms c rid hreg hc
  | leave => exact leave_preserves rooms c hreg hc
  | close => exact leave_preserves rooms c hreg hc

/-- Witness for C1 at a concrete state: a create operation from the empty
registry. -/
theorem C1_ops_preserve_invariant_witness :
    registryInv (applyOp [] ⟨0, none⟩ (Op.create "a" (some 2))).1 ∧
    clientInv (applyOp [] ⟨0, none⟩ (Op.create "a" (some 2))).1
      (applyOp [] ⟨0, none⟩ (Op.create "a" (some 2))).2.1 :=
  ⟨(C1_ops_preserve_invariant [] ⟨0, none⟩ (Op.create "a" (some 2))
      registryInv_nil (clientInv_nil ⟨0, none⟩ rfl)).1,
   (C1_ops_preserve_invariant [] ⟨0, none⟩ (Op.create "a" (some 2))
      registryInv_nil (clientInv_nil ⟨0, none⟩ rfl)).2.1⟩

/-! ### Capacity bounds (claim C8) -/

theorem capacityInv_preserved (rooms : Registry) (c : Client) (op : Op)
    (hcap : capacityInv rooms) : capacityInv (applyOp rooms c op).1 := by
  cases op with
  | create newId so =>
    by_cases hg : inSomeRoomb rooms c.sender
    · simpa [applyOp, handle_create_room, hg] using hcap
    · have hg' : inSomeRoomb rooms c.sender = false := by simpa using hg
      by_cases hsz : (so.getD Room.DEFAULT_ROOM_SIZE) = Room.MIN_ROOM_SIZE ∨
          (so.getD Room.DEFAULT_ROOM_SIZE) ≥ Room.MAX_ROOM_SIZE
      · simpa [applyOp, handle_create_room, hg', hsz] using hcap
      · by_cases hck : containsKey rooms newId
        · simpa [applyOp, handle_create_room, hg', hsz, hck] using hcap
        · have hred : (applyOp rooms c (Op.create newId so)).1 =
              (newId, ⟨so.getD Room.DEFAULT_ROOM_SIZE, [c.sender]⟩) :: rooms := by
            simp [applyOp, handle_create_room, hg', hsz, hck]
          rw [hred]
          intro k r h
          rcases lookupRoom_cons_cases h with ⟨hk, hr⟩ | ⟨-, h⟩
          · rw [← hr]
            simp only [Room.MIN_ROOM_SIZE, Room.MAX_ROOM_SIZE] at hsz
            push_neg at hsz
            refine ⟨?_, ?_, ?_⟩ <;> simp <;> omega
          · exact hcap k r h
  | join rid =>
    by_cases hg : inSomeRoomb rooms c.sender
    · simpa [applyOp, handle_join_room, hg] using hcap
    · have hg' : inSomeRoomb rooms c.sender = false := by simpa using hg
      cases hlook : lookupRoom rooms rid with
      | none => simpa [applyOp, handle_join_room, hg', hlook] using hcap
      | some room =>
        by_cases hfull : room.senders.length ≥ room.size
        · simpa [applyOp, handle_join_room, hg', hlook, hfull] using hcap
        · have hred : (applyOp rooms c (Op.join rid)).1 =
              setRoom rooms rid { room with senders := room.senders ++ [c.sender] } := by
            simp [applyOp, handle_join_room, hg', hlook, hfull]
          rw [hred]
          intro k r h
          rcases lookupRoom_setRoom_cases h with ⟨hk, hr, -⟩ | ⟨-, h⟩
          · subst hr
            obtain ⟨h1, h2, h3⟩ := hcap rid room hlook
            refine ⟨h1, h2, ?_⟩
            simp
            omega
          · exact hcap k r h
  | leave =>
    cases hrid : c.room_id with
    | none => simpa [applyOp, handle_leave_room, hrid] using hcap
    | some rid =>
      cases hlook : lookupRoom rooms rid with
      | none => simpa [applyOp, handle_leave_room, hrid, hlook] using hcap
      | some room =>
        cases hpos : position room.senders c.sender with
        | none => simpa [applyOp, handle_leave_room, hrid, hlook, hpos] using hcap
        | some i =>
          by_cases hemp : (room.senders.eraseIdx i).isEmpty
          · have hred : (applyOp rooms c Op.leave).1 = removeRoom rooms rid := by
              simp [applyOp, handle_leave_room, hrid, hlook, hpos, hemp]
            rw [hred]
            intro k r h
            exact hcap k r (lookupRoom_removeRoom_cases h).2
          · have hred : (applyOp rooms c Op.leave).1 =
                setRoom rooms rid { room with senders := room.senders.eraseIdx i } := by
              simp [applyOp, handle_leave_room, hrid, hlook, hpos, hemp]
            rw [hred]
            intro k r h
            rcases lookupRoom_setRoom_cases h with ⟨hk, hr, -⟩ | ⟨-, h⟩
            · subst hr
              obtain ⟨h1, h2, h3⟩ := hcap rid room hlook
              refine ⟨h1, h2, ?_⟩
              have hlen : (room.senders.eraseIdx i).length ≤ room.senders.length := by
                rw [List.length_eraseIdx]
                split <;> omega
              exact le_trans hlen h3
            · exact hcap k r h
  | close =>
    cases hrid : c.room_id with
    | none => simpa [applyOp, handle_close, handle_leave_room, hrid] using hcap
    | some rid =>
      cases hlook : lookupRoom rooms rid with
      | none =>
        simpa [applyOp, handle_close, handle_leave_room, hrid, hlook] using hcap
      | some room =>
        cases hpos : position room.senders c.sender with
        | none =>
          simpa [applyOp, handle_close, handle_leave_room, hrid, hlook, hpos] using hcap
        | some i =>
          by_cases hemp : (room.senders.eraseIdx i).isEmpty
          · have hred : (applyOp rooms c Op.close).1 = removeRoom rooms rid := by
              simp [applyOp, handle_close, handle_leave_room, hrid, hlook, hpos, hemp]
            rw [hred]
            intro k r h
            exact hcap k r (lookupRoom_removeRoom_cases h).2
          · have hred : (applyOp rooms c Op.close).1 =
                setRoom rooms rid { room with senders := room.senders.eraseIdx i } := by
              simp [applyOp, handle_close, handle_leave_room, hrid, hlook, hpos, hemp]
            rw [hred]
            intro k r h
            rcases lookupRoom_setRoom_cases h with ⟨hk, hr, -⟩ | ⟨-, h⟩
            · subst hr
              obtain ⟨h1, h2, h3⟩ := hcap rid room hlook
              refine ⟨h1, h2, ?_⟩
              have hlen : (room.senders.eraseIdx i).length ≤ room.senders.length := by
                rw [List.length_eraseIdx]
                split <;> omega
              exact le_trans hlen h3
            · exact hcap k r h

theorem reachable_capacityInv {rooms : Registry} (h : ReachableReg rooms) :
    capacityInv rooms := by
  induction h with
  | init =>
    intro k r hlk
    simp [lookupRoom] at hlk
  | step c op h ih => exact capacityInv_preserved _ c op ih

/-- C8: in every reachable registry state, every room's occupancy is at most
254; hence a sender's room index is always below 255, the binary handler
never reaches the `u8::try_from(index).unwrap()` panic (it never returns
`none`), and the broadcast sentinel 255 can never satisfy the unicast test
`destination < occupancy`. -/
theorem C8_occupancy_bound {rooms : Registry} (h : ReachableReg rooms) :
    (∀ k r, lookupRoom rooms k = some r → r.senders.length ≤ 254) ∧
    (∀ (c : Client) (rid : String) (room : Room) (i : Nat),
      c.room_id = some rid → lookupRoom rooms rid = some room →
      position room.senders c.sender = some i → i < 255) ∧
    (∀ (c : Client) (data : List Nat), handle_binary rooms c data ≠ none) ∧
    (∀ k r, lookupRoom rooms k = some r → ¬ (255 < r.senders.length)) := by
  have hcap := reachable_capacityInv h
  have hbound : ∀ k r, lookupRoom rooms k = some r → r.senders.length ≤ 254 := by
    intro k r hlk
    obtain ⟨-, h2, h3⟩ := hcap k r hlk
    omega
  refine ⟨hbound, ?_, ?_, ?_⟩
  · intro c rid room i hrid hlook hpos
    have := position_lt hpos
    have := hbound rid room hlook
    omega
  · intro c data
    cases hrid : c.room_id with
    | none => simp [handle_binary, hrid]
    | some rid =>
      cases hlook : lookupRoom rooms rid with
      | none => simp [handle_binary, hrid, hlook]
      | some room =>
        cases hpos : position room.senders c.sender with
        | none => simp [handle_binary, hrid, hlook, hpos]
        | some i =>
          cases data with
          | nil => simp [handle_binary, hrid, hlook, hpos]
          | cons d rest =>
            have hi : i < room.senders.length := position_lt hpos
            have hle : room.senders.length ≤ 254 := hbound rid room hlook
            have h256 : ¬ (256 ≤ i) := by omega
            simp only [handle_binary, hrid, hlook, hpos, h256, if_false]
            split
            · simp
            · split <;> simp
  · intro k r hlk
    have := hbound k r hlk
    omega

/-- Witness for C8 at the empty (initial) registry: the binary handler never
panics there. -/
theorem C8_occupancy_bound_witness :
    handle_binary [] ⟨0, some "r"⟩ [255, 7] ≠ none :=
  (C8_occupancy_bound ReachableReg.init).2.2.1 ⟨0, some "r"⟩ [255, 7]

/-- C2: a nonempty binary frame from the peer at index `i` in its room whose
destination byte `d` satisfies `d < occupancy` is delivered, with its first
byte rewritten to `i` and the remaining bytes unchanged, exactly to the peer
at index `d`; `d = i` is allowed and loops the frame back to the sender. -/
theorem C2_unicast_rewrites_and_delivers (rooms : Registry) (c : Client)
    (rid : String) (room : Room) (i d : Nat) (rest : List Nat)
    (hrid : c.room_id = some rid)
    (hlook : lookupRoom rooms rid = some room)
    (hpos : position room.senders c.sender = some i)
    (hocc : room.senders.length ≤ 254)
    (hd : d < room.senders.length) :
    handle_binary rooms c (d :: rest) =
      some [(room.senders.get ⟨d, hd⟩, i :: rest)] ∧
    (d = i → room.senders.get ⟨d, hd⟩ = c.sender) := by
  have hi : i < room.senders.length := position_lt hpos
  have h256 : ¬ (256 ≤ i) := by omega
  constructor
  · simp [handle_binary, hrid, hlook, hpos, h256, hd]
  · intro hdi
    subst hdi
    exact position_get hpos hd

/-- Witness for C2: loop-back unicast (`d = i = 2`) in a three-peer room. -/
theorem C2_unicast_rewrites_and_delivers_witness :
    handle_binary [("u", ⟨3, [10, 11, 12]⟩)] ⟨12, some "u"⟩ [2, 170] =
      some [(12, [2, 170])] := by
  have h := C2_unicast_rewrites_and_delivers [("u", ⟨3, [10, 11, 12]⟩)]
    ⟨12, some "u"⟩ "u" ⟨3, [10, 11, 12]⟩ 2 2 [170]
    rfl (by decide) (by decide) (by decide) (by decide)
  rw [h.1]
  rfl

/-- C3: a binary frame from the peer at index `i` with destination byte 255
is broadcast, first byte rewritten to `i`, to every peer of the room except
the sender (identity comparison); a destination `d ≥ occupancy` with
`d ≠ 255` is dropped silently; an empty payload is dropped silently. -/
theorem C3_broadcast_and_drops (rooms : Registry) (c : Client)
    (rid : String) (room : Room) (i : Nat)
    (hrid : c.room_id = some rid)
    (hlook : lookupRoom rooms rid = some room)
    (hpos : position room.senders c.sender = some i)
    (hocc : room.senders.length ≤ 254) :
    (∀ rest : List Nat,
      handle_binary rooms c (255 :: rest) =
        some ((room.senders.filter fun s => s ≠ c.sender).map
          fun s => (s, i :: rest))) ∧
    (∀ d rest, room.senders.length ≤ d → d ≠ 255 →
      handle_binary rooms c (d :: rest) = some []) ∧
    handle_binary rooms c [] = some [] := by
  have hi : i < room.senders.length := position_lt hpos
  have h256 : ¬ (256 ≤ i) := by omega
  refine ⟨?_, ?_, ?_⟩
  · intro rest
    have hnl : ¬ (255 < room.senders.length) := by omega
    simp [handle_binary, hrid, hlook, hpos, h256, hnl]
  · intro d rest hdn hd255
    have hnd : ¬ (d < room.senders.length) := by omega
    simp [handle_binary, hrid, hlook, hpos, h256, hnd, hd255]
  · simp [handle_binary, hrid, hlook, hpos]

/-- Witness for C3: broadcast from peer index 0 of a three-peer room reaches
exactly the two other peers with the first byte rewritten to 0. -/
theorem C3_broadcast_and_drops_witness :
    handle_binary [("u", ⟨3, [10, 11, 12]⟩)] ⟨10, some "u"⟩ [255, 10, 11] =
      some [(11, [0, 10, 11]), (12, [0, 10, 11])] := by
  have h := (C3_broadcast_and_drops [("u", ⟨3, [10, 11, 12]⟩)] ⟨10, some "u"⟩
    "u" ⟨3, [10, 11, 12]⟩ 0 rfl (by decide) (by decide) (by decide)).1 [10, 11]
  rw [h]
  rfl

/-- C4: a successful join raising occupancy from `k` to `k + 1` emits exactly
`k + 1` join frames: each of the `k` previously-present peers receives a
join frame with the `size` field absent, and the joining peer receives
`join{size = k}`, `k` being both its assigned index and the occupancy
immediately before insertion. -/
theorem C4_join_notification_frames (rooms : Registry) (c : Client)
    (rid : String) (room : Room)
    (hg : inSomeRoomb rooms c.sender = false)
    (hlook : lookupRoom rooms rid = some room)
    (hcap : room.senders.length < room.size) :
    (handle_join_room rooms c rid).2.2 =
      (room.senders.map fun s => (s, ResponsePacket.join none)) ++
        [(c.sender, ResponsePacket.join (some room.senders.length))] ∧
    (handle_join_room rooms c rid).2.2.length = room.senders.length + 1 := by
  have hfull : ¬ (room.senders.length ≥ room.size) := by omega
  have hcnot : c.sender ∉ room.senders := guard_not_mem hg hlook
  have hred : (handle_join_room rooms c rid).2.2 =
      (room.senders ++ [c.sender]).map fun s =>
        if s = c.sender then
          (s, ResponsePacket.join (some ((room.senders ++ [c.sender]).length - 1)))
        else (s, ResponsePacket.join none) := by
    simp [handle_join_room, hg, hlook, hfull]
  rw [hred, List.map_append]
  constructor
  · congr 1
    · apply List.map_congr_left
      intro s hs
      have hne : s ≠ c.sender := fun hh => hcnot (hh ▸ hs)
      simp [hne]
    · simp
  · simp

/-- Witness for C4: a third peer joins a two-peer room; three frames are
emitted, `join{size = 2}` to the joiner and bare `join` to the others. -/
theorem C4_join_notification_frames_witness :
    (handle_join_room [("u", ⟨3, [10, 11]⟩)] ⟨12, none⟩ "u").2.2 =
      [(10, ResponsePacket.join none), (11, ResponsePacket.join none),
       (12, ResponsePacket.join (some 2))] := by
  have h := (C4_join_notification_frames [("u", ⟨3, [10, 11]⟩)] ⟨12, none⟩ "u"
    ⟨3, [10, 11]⟩ (by decide) (by decide) (by decide)).1
  rw [h]
  rfl

/-- C5: after a departure (explicit leave; connection close runs the same
handler), exactly occupancy-after-removal frames `leave{index = i}` are
emitted, one to each remaining peer and none to the departing peer, where
`i` is the index the departing peer held at the moment of removal; when the
departing peer was the last member, no frame is emitted and the room's
registry entry is removed. -/
theorem C5_leave_notification_frames (rooms : Registry) (c : Client)
    (rid : String) (room : Room) (i : Nat)
    (hnd : room.senders.Nodup)
    (hrid : c.room_id = some rid)
    (hlook : lookupRoom rooms rid = some room)
    (hpos : position room.senders c.sender = some i) :
    (handle_leave_room rooms c).2.2 =
      (room.senders.eraseIdx i).map (fun s => (s, ResponsePacket.leave i)) ∧
    (handle_leave_room rooms c).2.2.length + 1 = room.senders.length ∧
    (∀ p ∈ (handle_leave_room rooms c).2.2, p.1 ≠ c.sender) ∧
    handle_close rooms c = handle_leave_room rooms c ∧
    (room.senders.length = 1 →
      (handle_leave_room rooms c).2.2 = [] ∧
      lookupRoom (handle_leave_room rooms c).1 rid = none) := by
  have hout : (handle_leave_room rooms c).2.2 =
      (room.senders.eraseIdx i).map (fun s => (s, ResponsePacket.leave i)) := by
    simp [handle_leave_room, hrid, hlook, hpos]
  refine ⟨hout, ?_, ?_, rfl, ?_⟩
  · rw [hout, List.length_map]
    exact length_eraseIdx_position hpos
  · intro p hp
    rw [hout] at hp
    obtain ⟨s, hs, rfl⟩ := List.mem_map.1 hp
    intro hcontra
    have hsc : s = c.sender := hcontra
    rw [hsc] at hs
    exact not_mem_eraseIdx_position hnd hpos hs
  · intro hlen1
    have hi : i < room.senders.length := position_lt hpos
    have hi0 : i = 0 := by omega
    subst hi0
    obtain ⟨a, ha⟩ := List.length_eq_one.1 hlen1
    have her : room.senders.eraseIdx 0 = [] := by rw [ha]; rfl
    constructor
    · rw [hout, her]; rfl
    · have hred1 : (handle_leave_room rooms c).1 = removeRoom rooms rid := by
        simp [handle_leave_room, hrid, hlook, hpos, her]
      rw [hred1]
      exact lookupRoom_removeRoom_self rooms rid

/-- Witness for C5: the peer at index 0 of a three-peer room departs; the two
remaining peers each receive `leave{index = 0}`. -/
theorem C5_leave_notification_frames_witness :
    (handle_leave_room [("u", ⟨3, [10, 11, 12]⟩)] ⟨10, some "u"⟩).2.2 =
      [(11, ResponsePacket.leave 0), (12, ResponsePacket.leave 0)] := by
  have h := (C5_leave_notification_frames [("u", ⟨3, [10, 11, 12]⟩)]
    ⟨10, some "u"⟩ "u" ⟨3, [10, 11, 12]⟩ 0
    (by decide) rfl (by decide) (by decide)).1
  rw [h]
  rfl

/-- C6: a create request from a peer in no room, with the requested size
defaulting to 2 when absent: a size of 0 or ≥ 255 yields exactly the error
frame "The room size is not valid" to the requester with no state change;
otherwise, when the generated identifier is fresh, a room of that capacity
containing only the requester (occupancy 1) is inserted under it and the
create acknowledgement carrying the identifier is sent to the requester
only. -/
theorem C6_create_validation_and_insert (rooms : Registry) (c : Client)
    (newId : String) (so : Option Nat)
    (hg : inSomeRoomb rooms c.sender = false) :
    (so.getD 2 = 0 ∨ 255 ≤ so.getD 2 →
      handle_create_room rooms c newId so =
        (rooms, c, [(c.sender, ResponsePacket.error "The room size is not valid")])) ∧
    (¬ (so.getD 2 = 0 ∨ 255 ≤ so.getD 2) → containsKey rooms newId = false →
      handle_create_room rooms c newId so =
        ((newId, ⟨so.getD 2, [c.sender]⟩) :: rooms,
         { c with room_id := some newId },
         [(c.sender, ResponsePacket.create newId)])) := by
  constructor
  · intro hsz
    simp [handle_create_room, Room.DEFAULT_ROOM_SIZE, Room.MIN_ROOM_SIZE,
      Room.MAX_ROOM_SIZE, hg, hsz]
  · intro hsz hck
    simp [handle_create_room, Room.DEFAULT_ROOM_SIZE, Room.MIN_ROOM_SIZE,
      Room.MAX_ROOM_SIZE, hg, hsz, hck]

/-- Witness for C6: size 0 is rejected with the exact message and no state
change; a default-size create from the empty registry inserts the room. -/
theorem C6_create_validation_and_insert_witness :
    handle_create_room [] ⟨0, none⟩ "a" (some 0) =
      ([], ⟨0, none⟩, [(0, ResponsePacket.error "The room size is not valid")]) ∧
    handle_create_room [] ⟨0, none⟩ "a" none =
      ([("a", ⟨2, [0]⟩)], ⟨0, some "a"⟩, [(0, ResponsePacket.create "a")]) :=
  ⟨(C6_create_validation_and_insert [] ⟨0, none⟩ "a" (some 0) rfl).1
      (by decide),
   (C6_create_validation_and_insert [] ⟨0, none⟩ "a" none rfl).2
      (by decide) rfl⟩

/-- C7: a create or join issued by a peer whose handle is already a member of
some room of the registry is a silent no-op: no frame is emitted and neither
the registry nor the session state changes. -/
theorem C7_already_in_room_noop (rooms : Registry) (c : Client)
    (hg : inSomeRoomb rooms c.sender = true) :
    (∀ newId so, handle_create_room rooms c newId so = (rooms, c, [])) ∧
    (∀ rid, handle_join_room rooms c rid = (rooms, c, [])) := by
  constructor
  · intro newId so
    simp [handle_create_room, hg]
  · intro rid
    simp [handle_join_room, hg]

/-- Witness for C7: a member of room "u" issuing create and join again. -/
theorem C7_already_in_room_noop_witness :
    handle_create_room [("u", ⟨3, [10]⟩)] ⟨10, some "u"⟩ "v" none =
      ([("u", ⟨3, [10]⟩)], ⟨10, some "u"⟩, []) ∧
    handle_join_room [("u", ⟨3, [10]⟩)] ⟨10, some "u"⟩ "u" =
      ([("u", ⟨3, [10]⟩)], ⟨10, some "u"⟩, []) :=
  ⟨(C7_already_in_room_noop [("u", ⟨3, [10]⟩)] ⟨10, some "u"⟩ (by decide)).1 "v" none,
   (C7_already_in_room_noop [("u", ⟨3, [10]⟩)] ⟨10, some "u"⟩ (by decide)).2 "u"⟩

theorem isEmpty_eq_false_of_ne {s : String} (h : s ≠ "") : s.isEmpty = false := by
  cases hh : s.isEmpty with
  | false => rfl
  | true => exact absurd ((String.isEmpty_iff s).1 hh) h

/-- C9: the origin gate with a non-empty configured host answers 400 to a
missing Origin header, a non-UTF-8 Origin value, an unparsable URI, or a URI
without a host, and aborts the upgrade; it accepts a parsed host equal to
the configured host or ending in "." followed by it; any other parsed host
is answered 403; with an empty configured host every request is accepted. -/
theorem C9_origin_gate_policy (host : String)
    (uriHost : String → Option (Option String)) :
    (host = "" → ∀ origin, originGate host origin uriHost = .accept) ∧
    (host ≠ "" →
      originGate host .missing uriHost = .badRequest ∧
      originGate host .invalidUtf8 uriHost = .badRequest ∧
      (∀ s, uriHost s = none → originGate host (.value s) uriHost = .badRequest) ∧
      (∀ s, uriHost s = some none →
        originGate host (.value s) uriHost = .badRequest) ∧
      (∀ s oh, uriHost s = some (some oh) →
        (oh = host ∨ endsWithStr oh ("." ++ host) = true) →
        originGate host (.value s) uriHost = .accept) ∧
      (∀ s oh, uriHost s = some (some oh) → oh ≠ host →
        endsWithStr oh ("." ++ host) = false →
        originGate host (.value s) uriHost = .forbidden)) := by
  constructor
  · intro h origin
    subst h
    cases origin <;> rfl
  · intro hne
    have hemp : host.isEmpty = false := isEmpty_eq_false_of_ne hne
    refine ⟨?_, ?_, ?_, ?_, ?_, ?_⟩
    · simp [originGate, hemp]
    · simp [originGate, hemp]
    · intro s hs
      simp [originGate, hemp, hs]
    · intro s hs
      simp [originGate, hemp, hs]
    · intro s oh hs hacc
      rcases hacc with rfl | hends
      · simp [originGate, hemp, hs]
      · simp [originGate, hemp, hs, hends]
    · intro s oh hs hoh hends
      simp [originGate, hemp, hs, hoh, hends]

/-- Witness for C9: with configured host "example.com", an origin host
"sub.example.com" is accepted and "evil.test" is answered 403. -/
theorem C9_origin_gate_policy_witness :
    originGate "example.com" (.value "https://sub.example.com")
      (fun _ => some (some "sub.example.com")) = .accept ∧
    originGate "example.com" (.value "https://evil.test")
      (fun _ => some (some "evil.test")) = .forbidden :=
  ⟨((C9_origin_gate_policy "example.com" (fun _ => some (some "sub.example.com"))).2
      (by decide)).2.2.2.2.1 "https://sub.example.com" "sub.example.com" rfl
      (Or.inr (by decide)),
   ((C9_origin_gate_policy "example.com" (fun _ => some (some "evil.test"))).2
      (by decide)).2.2.2.2.2 "https://evil.test" "evil.test" rfl
      (by decide) (by decide)⟩

/-- C10 counterexample: after one failed accept the loop exits at once —
the later successful connection is never processed, so a single-connection
failure does terminate the acceptor loop, and nothing is logged for it. -/
theorem C10_counterexample :
    runAcceptor [AcceptEvent.acceptErr, AcceptEvent.conn false] =
      (AcceptorOutcome.exited, 0) ∧
    runAcceptor [AcceptEvent.acceptErr, AcceptEvent.conn false] ≠
      (AcceptorOutcome.ranOut, 1) := by
  exact ⟨rfl, by decide⟩

/-- C10 (amended): per-connection failures terminate the acceptor: an error
from `accept` ends the `while let` loop immediately (no later connection is
processed and nothing is logged), a failing `set_nodelay` panics through
`unwrap()`, and only successfully prepared connections keep the loop
running. -/
theorem C10_acceptor_failures_terminate (rest : List AcceptEvent) :
    runAcceptor (AcceptEvent.acceptErr :: rest) = (AcceptorOutcome.exited, 0) ∧
    runAcceptor (AcceptEvent.conn true :: rest) = (AcceptorOutcome.panicked, 0) ∧
    runAcceptor (AcceptEvent.conn false :: rest) =
      ((runAcceptor rest).1, (runAcceptor rest).2 + 1) := by
  refine ⟨rfl, rfl, ?_⟩
  simp [runAcceptor]

end Relay
